import Mathlib

/-!
Verification of `avgv.c` (mpitutorial, scatter/gather average program).

Shallow embedding conventions:
* C `int` values are modelled as `Int`; C integer division (truncation
  toward zero) is `Int.tdiv`.  Loop bounds and array lengths are `Nat`.
* C `float` arithmetic is modelled exactly over `ℚ` (each arithmetic
  operation performed without rounding); division by zero in `ℚ` yields `0`
  where the C program would produce `NaN` or `inf`.
* Arrays are `List`s; the loops of the C functions become `List.foldl`
  over `List.range`, carrying the same mutable state the loop carries.
-/

namespace Avgv

/-- Embedding of `split_num_between_processes` (avgv.c lines 30-47).
The C loop runs `i = 0 .. num_bins - 2`, writing `displacements[i] :=
element_position`, `num_elements_by_process[i] := elements_to_split /
num_bins` and accumulating `element_position += elements_to_split /
num_bins`; after the loop the last bin gets `displacements[num_bins-1] :=
element_position` and `num_elements_by_process[num_bins-1] :=
elements_to_split - element_position`.  Returns
`(num_elements_by_process, displacements)`. -/
def split_num_between_processes (elements_to_split : Int) (num_bins : Nat) :
    List Int × List Int :=
  let step : (List Int × List Int × Int) → Nat → (List Int × List Int × Int) :=
    fun s _ =>
      (s.1 ++ [elements_to_split.tdiv num_bins],
       s.2.1 ++ [s.2.2],
       s.2.2 + elements_to_split.tdiv num_bins)
  let r := (List.range (num_bins - 1)).foldl step ([], [], 0)
  (r.1 ++ [elements_to_split - r.2.2], r.2.1 ++ [r.2.2])

/-- Embedding of `compute_avg` (avgv.c lines 50-57): `sum` accumulated by a
loop over the array, result `sum / num_elements`.  The `num_elements`
argument of the C function is the length of the array in every call site,
so the list version carries it as `array.length`. -/
def compute_avg (array : List ℚ) : ℚ :=
  let sum := array.foldl (fun s x => s + x) 0
  sum / (array.length : ℚ)

/-- Modelled from the spec (tightened Local Averager contract, spec §8:
the averager "must signal an explicit error rather than silently producing
NaN/undefined output" on an empty slice).  This contract is absent from
the source; it is stated here only to be compared with the source's
`compute_avg`, which is total and signals nothing. -/
def compute_avg_spec (array : List ℚ) : Option ℚ :=
  if array.length = 0 then none
  else some (array.sum / (array.length : ℚ))

/-- Embedding of `compute_weighted_avg` (avgv.c lines 60-70): one loop
accumulating `sum += weights_array[i] * array[i]` and
`sum_weights += weights_array[i]` (the C `int` weight is converted to
`float` at each use), result `sum / sum_weights`.  The loop reads both
arrays at the same indices, modelled by folding over their zip (every
call site passes arrays of equal length `num_elements`). -/
def compute_weighted_avg (array : List ℚ) (weights_array : List Int) : ℚ :=
  let r := (weights_array.zip array).foldl
    (fun (s : ℚ × ℚ) p => (s.1 + (p.1 : ℚ) * p.2, s.2 + (p.1 : ℚ))) (0, 0)
  r.1 / r.2

/-- The slice of the global array that `MPI_Scatterv` (avgv.c lines
102-114) delivers to worker `rank`: `num_elements_by_process[rank]`
elements starting at index `displacements[rank]`. -/
def local_slice (rand_nums : List ℚ) (num_elements_by_process displacements : List Int)
    (rank : Nat) : List ℚ :=
  ((rand_nums.drop (displacements.getD rank 0).toNat).take
    (num_elements_by_process.getD rank 0).toNat)

/-- Result of the argument check at the top of `main` (avgv.c lines 73-76):
if `argc != 2` the program writes the usage line to standard error and
exits with code 1 before doing anything else; otherwise it proceeds to
run with `argv[1]`. -/
inductive MainStart where
  | usageError (exitCode : Nat) (stderrMsg : String)
  | run (total_num_elements_arg : String)
deriving DecidableEq, Repr

/-- Embedding of the `argc` check of `main`: `argv` includes the program
name, so `argc = argv.length`. -/
def main_start (argv : List String) : MainStart :=
  if argv.length ≠ 2 then
    .usageError 1 "Usage: avg total_num_elements\n"
  else
    .run (argv.getD 1 "")

/-! ### Closed form of the partitioner loop -/

/-- Closed form of the loop of `split_num_between_processes`, with the
accumulated state generalised. -/
theorem split_foldl_closed (q : Int) (k : Nat) (cs ds : List Int) (p : Int) :
    (List.range k).foldl
      (fun (s : List Int × List Int × Int) (_ : Nat) =>
        (s.1 ++ [q], s.2.1 ++ [s.2.2], s.2.2 + q)) (cs, ds, p) =
      (cs ++ List.replicate k q,
       ds ++ (List.range k).map (fun (i : Nat) => p + (i : Int) * q),
       p + (k : Int) * q) := by
  induction k with
  | zero => simp
  | succ k ih =>
    rw [List.range_succ, List.foldl_append, ih]
    simp only [List.foldl_cons, List.foldl_nil, List.replicate_succ',
      List.range_succ, List.map_append, List.map_cons, List.map_nil,
      List.append_assoc, Prod.mk.injEq]
    refine ⟨trivial, trivial, by push_cast; ring⟩

/-- Closed form of `split_num_between_processes`: the first `n - 1` counts
are `e tdiv n` with displacements `0, q, 2q, ...`, and the last bin takes
whatever is left. -/
theorem split_num_between_processes_eq (e : Int) (n : Nat) :
    split_num_between_processes e n =
      (List.replicate (n - 1) (e.tdiv n) ++ [e - ((n - 1 : Nat) : Int) * e.tdiv n],
       (List.range (n - 1)).map (fun (i : Nat) => (i : Int) * e.tdiv n) ++
         [((n - 1 : Nat) : Int) * e.tdiv n]) := by
  unfold split_num_between_processes
  dsimp only
  rw [split_foldl_closed]
  simp

/-- For `0 ≤ e` and `1 ≤ n`, `n * (e tdiv n) ≤ e` (truncated division of a
nonnegative value is floor division). -/
theorem mul_tdiv_le (e : Int) (n : Nat) (he : 0 ≤ e) (hn : 1 ≤ n) :
    (n : Int) * e.tdiv n ≤ e := by
  have hn' : (0 : Int) < n := by exact_mod_cast hn
  rw [Int.tdiv_eq_ediv he (le_of_lt hn')]
  have hmod : 0 ≤ e % (n : Int) := Int.emod_nonneg e (ne_of_gt hn')
  have := Int.ediv_add_emod e (n : Int)
  omega

/-- Every displacement is `i * (e tdiv n)`. -/
theorem split_displs_getD (e : Int) (n i : Nat) (hi : i < n) :
    (split_num_between_processes e n).2.getD i 0 = (i : Int) * e.tdiv n := by
  rw [split_num_between_processes_eq]
  rcases lt_or_ge i (n - 1) with h | h
  · rw [List.getD_append _ _ _ _ (by simpa using h), List.getD_eq_getElem _ _ (by simpa using h)]
    simp
  · have hi' : i = n - 1 := by omega
    subst hi'
    rw [List.getD_append_right _ _ _ _ (by simp)]
    simp

/-- The first `n - 1` counts are all `e tdiv n`. -/
theorem split_counts_getD (e : Int) (n i : Nat) (hi : i < n - 1) :
    (split_num_between_processes e n).1.getD i 0 = e.tdiv n := by
  rw [split_num_between_processes_eq]
  rw [List.getD_append _ _ _ _ (by simpa using hi), List.getD_eq_getElem _ _ (by simpa using hi)]
  simp

/-- The last count takes whatever the first `n - 1` counts left over. -/
theorem split_counts_last (e : Int) (n : Nat) :
    (split_num_between_processes e n).1.getD (n - 1) 0 =
      e - ((n - 1 : Nat) : Int) * e.tdiv n := by
  rw [split_num_between_processes_eq]
  rw [List.getD_append_right _ _ _ _ (by simp)]
  simp

/-- Sum of the first `i ≤ n - 1` counts. -/
theorem split_counts_take_sum (e : Int) (n i : Nat) (hi : i ≤ n - 1) :
    (((split_num_between_processes e n).1).take i).sum = (i : Int) * e.tdiv n := by
  rw [split_num_between_processes_eq]
  rw [List.take_append_of_le_length (by simpa using hi), List.take_replicate]
  rw [Nat.min_eq_left hi]
  simp [mul_comm]

/-- The counts sum to the whole input, whatever it is. -/
theorem split_counts_sum (e : Int) (n : Nat) :
    ((split_num_between_processes e n).1).sum = e := by
  rw [split_num_between_processes_eq]
  simp [mul_comm]

/-- Number of counts and displacements is the number of bins. -/
theorem split_length (e : Int) (n : Nat) (hn : 1 ≤ n) :
    (split_num_between_processes e n).1.length = n ∧
      (split_num_between_processes e n).2.length = n := by
  rw [split_num_between_processes_eq]
  constructor <;> simp <;> omega

/-- C1: for every `total_elements ≥ 0` and `num_workers ≥ 1`, the partition
plan of `split_num_between_processes` satisfies: the counts sum exactly to
`total_elements`; `offset[i]` is the sum of `count[0..i)` for every worker
index `i < num_workers`; and every count is nonnegative. -/
theorem C1_partitioner_invariant (e : Int) (n : Nat) (he : 0 ≤ e) (hn : 1 ≤ n) :
    ((split_num_between_processes e n).1).sum = e ∧
    (∀ i, i < n →
      (split_num_between_processes e n).2.getD i 0 =
        (((split_num_between_processes e n).1).take i).sum) ∧
    (∀ c ∈ (split_num_between_processes e n).1, 0 ≤ c) := by
  have hq : 0 ≤ e.tdiv n := Int.tdiv_nonneg he (by positivity)
  refine ⟨split_counts_sum e n, ?_, ?_⟩
  · intro i hi
    rw [split_displs_getD e n i hi, split_counts_take_sum e n i (by omega)]
  · intro c hc
    rw [split_num_between_processes_eq] at hc
    rcases List.mem_append.mp hc with h | h
    · rw [List.eq_of_mem_replicate h]; exact hq
    · have hc' : c = e - ((n - 1 : Nat) : Int) * e.tdiv n := by simpa using h
      subst hc'
      have h1 : ((n - 1 : Nat) : Int) * e.tdiv n ≤ (n : Int) * e.tdiv n := by
        have : ((n - 1 : Nat) : Int) ≤ (n : Int) := by exact_mod_cast Nat.sub_le n 1
        exact mul_le_mul_of_nonneg_right this hq
      have h2 := mul_tdiv_le e n he hn
      omega

/-- Witness for C1 at `total_elements = 10`, `num_workers = 3`. -/
theorem C1_partitioner_invariant_witness :
    ((split_num_between_processes 10 3).1).sum = 10 :=
  (C1_partitioner_invariant 10 3 (by decide) (by decide)).1

/-- C4: for every `total_elements ≥ 0` and `num_workers ≥ 1`, the
partitioner assigns `floor(total_elements / num_workers)` elements to each
of the first `num_workers - 1` workers, with offsets accumulating
sequentially (`offset[i] = i * floor(total_elements / num_workers)`), and
assigns all remaining elements to the last worker; in particular
`total_elements = 10`, `num_workers = 3` gives counts `{3,3,4}` and
offsets `{0,3,6}`. -/
theorem C4_partitioner_algorithm :
    (∀ (e : Int) (n : Nat), 0 ≤ e → 1 ≤ n →
      (∀ i, i < n - 1 →
        (split_num_between_processes e n).1.getD i 0 = e / (n : Int)) ∧
      (∀ i, i < n →
        (split_num_between_processes e n).2.getD i 0 = (i : Int) * (e / (n : Int))) ∧
      (split_num_between_processes e n).1.getD (n - 1) 0 =
        e - ((n - 1 : Nat) : Int) * (e / (n : Int))) ∧
    split_num_between_processes 10 3 = ([3, 3, 4], [0, 3, 6]) := by
  constructor
  · intro e n he hn
    have hn' : (0 : Int) ≤ (n : Int) := by positivity
    have htd : e.tdiv (n : Int) = e / (n : Int) := Int.tdiv_eq_ediv he hn'
    refine ⟨fun i hi => ?_, fun i hi => ?_, ?_⟩
    · rw [split_counts_getD e n i hi, htd]
    · rw [split_displs_getD e n i hi, htd]
    · rw [split_counts_last e n, htd]
  · decide

/-- Witness for C4 at `total_elements = 10`, `num_workers = 3`: the third
worker's offset is `2 * floor(10/3) = 6`. -/
theorem C4_partitioner_algorithm_witness :
    (split_num_between_processes 10 3).2.getD 2 0 = (2 : Int) * ((10 : Int) / 3) :=
  (C4_partitioner_algorithm.1 10 3 (by decide) (by decide)).2.1 2 (by decide)

/-- C9: the last worker's count is `floor(e/n) + (e mod n)`; it is at least
every other worker's count, and exceeds the others by at most `n - 1`. -/
theorem C9_last_worker_absorbs_remainder (e : Int) (n : Nat) (he : 0 ≤ e) (hn : 1 ≤ n) :
    (split_num_between_processes e n).1.getD (n - 1) 0
        = e / (n : Int) + e % (n : Int) ∧
    (∀ i, i < n - 1 →
      (split_num_between_processes e n).1.getD i 0 ≤
        (split_num_between_processes e n).1.getD (n - 1) 0) ∧
    (∀ i, i < n - 1 →
      (split_num_between_processes e n).1.getD (n - 1) 0 -
        (split_num_between_processes e n).1.getD i 0 ≤ (n : Int) - 1) := by
  have hn0 : (0 : Int) < (n : Int) := by exact_mod_cast hn
  have htd : e.tdiv (n : Int) = e / (n : Int) := Int.tdiv_eq_ediv he (le_of_lt hn0)
  have hdm := Int.ediv_add_emod e (n : Int)
  have hcast : ((n - 1 : Nat) : Int) = (n : Int) - 1 := by
    have := Nat.cast_sub hn (R := Int)
    simpa using this
  have hlast : (split_num_between_processes e n).1.getD (n - 1) 0
      = e / (n : Int) + e % (n : Int) := by
    rw [split_counts_last e n, htd, hcast]
    ring_nf
    omega
  have hmod0 : 0 ≤ e % (n : Int) := Int.emod_nonneg e (ne_of_gt hn0)
  have hmodlt : e % (n : Int) < (n : Int) := Int.emod_lt_of_pos e hn0
  have hq : 0 ≤ e / (n : Int) := Int.ediv_nonneg he (le_of_lt hn0)
  refine ⟨hlast, fun i hi => ?_, fun i hi => ?_⟩
  · rw [split_counts_getD e n i hi, htd, hlast]; omega
  · rw [split_counts_getD e n i hi, htd, hlast]; omega

/-- Witness for C9 at `total_elements = 10`, `num_workers = 3`: the last
count is `10/3 + 10%3 = 4`. -/
theorem C9_last_worker_absorbs_remainder_witness :
    (split_num_between_processes 10 3).1.getD 2 0 = (10 : Int) / 3 + (10 : Int) % 3 :=
  (C9_last_worker_absorbs_remainder 10 3 (by decide) (by decide)).1

/-- C10: the partitioner is deterministic — two invocations on equal
inputs produce identical count/displacement arrays, so every participant
running the same call on the same `(total_elements, world_size)` pair
arrives at the identical partition plan required by `MPI_Scatterv`. -/
theorem C10_partitioner_deterministic (e₁ e₂ : Int) (n₁ n₂ : Nat)
    (plan₁ plan₂ : List Int × List Int)
    (h₁ : plan₁ = split_num_between_processes e₁ n₁)
    (h₂ : plan₂ = split_num_between_processes e₂ n₂)
    (he : e₁ = e₂) (hn : n₁ = n₂) :
    plan₁ = plan₂ := by
  subst he hn h₁ h₂
  rfl

/-- Witness for C10: two participants both partitioning 10 elements over
3 workers compute equal plans. -/
theorem C10_partitioner_deterministic_witness :
    split_num_between_processes 10 3 = split_num_between_processes 10 3 :=
  C10_partitioner_deterministic 10 10 3 3 _ _ rfl rfl rfl rfl

/-! ### Round trip of the scatter slices -/

/-- Concatenating `k` consecutive `q`-element slices taken at offsets
`0, q, 2q, ...` yields the first `k * q` elements. -/
theorem flatten_uniform_slices (xs : List ℚ) (q k : Nat) :
    ((List.range k).map (fun i => (xs.drop (i * q)).take q)).flatten
      = xs.take (k * q) := by
  induction k with
  | zero => simp
  | succ k ih =>
    rw [List.range_succ, List.map_append, List.map_cons, List.map_nil,
      List.flatten_concat, ih, Nat.succ_mul, List.take_add]

/-- For `0 ≤` both operands, `tdiv` agrees with `Nat` division. -/
theorem tdiv_natCast (len n : Nat) :
    ((len : Int)).tdiv ((n : Nat) : Int) = ((len / n : Nat) : Int) :=
  (Int.ofNat_tdiv len n).symm

/-- The first `n - 1` workers together get at most the whole array. -/
theorem split_mul_div_le (len k : Nat) : k * (len / (k + 1)) ≤ len :=
  calc k * (len / (k + 1)) ≤ (k + 1) * (len / (k + 1)) :=
        Nat.mul_le_mul_right _ (by omega)
  _ = len / (k + 1) * (k + 1) := Nat.mul_comm _ _
  _ ≤ len := Nat.div_mul_le_self len (k + 1)

/-- The local slice of a non-last worker `i < n - 1 = k` is the
`len / n`-element window starting at `i * (len / n)`. -/
theorem local_slice_eq_take_drop (xs : List ℚ) (k i : Nat) (hik : i < k) :
    local_slice xs (split_num_between_processes (xs.length : Int) (k + 1)).1
        (split_num_between_processes (xs.length : Int) (k + 1)).2 i
      = (xs.drop (i * (xs.length / (k + 1)))).take (xs.length / (k + 1)) := by
  unfold local_slice
  rw [split_displs_getD _ (k + 1) i (by omega),
    split_counts_getD _ (k + 1) i (by simpa using hik), tdiv_natCast,
    ← Nat.cast_mul, Int.toNat_ofNat, Int.toNat_ofNat]

/-- The local slice of the last worker is everything from
`(n - 1) * (len / n)` on. -/
theorem local_slice_last_eq_drop (xs : List ℚ) (k : Nat) :
    local_slice xs (split_num_between_processes (xs.length : Int) (k + 1)).1
        (split_num_between_processes (xs.length : Int) (k + 1)).2 k
      = xs.drop (k * (xs.length / (k + 1))) := by
  unfold local_slice
  have hcl := split_counts_last ((xs.length : Nat) : Int) (k + 1)
  simp only [Nat.add_sub_cancel] at hcl
  rw [split_displs_getD _ (k + 1) k (by omega), hcl, tdiv_natCast]
  rw [← Nat.cast_mul, Int.toNat_ofNat]
  have hsub : ((xs.length : Nat) : Int) - ((k * (xs.length / (k + 1)) : Nat) : Int)
      = ((xs.length - k * (xs.length / (k + 1)) : Nat) : Int) := by
    push_cast [split_mul_div_le xs.length k]
    ring
  rw [hsub, Int.toNat_ofNat]
  exact List.take_of_length_le (by simp)

/-- C2: concatenating the per-worker local slices delivered by
`MPI_Scatterv` (per the partition plan's counts and displacements) in rank
order reconstructs the original global array exactly. -/
theorem C2_scatter_roundtrip (xs : List ℚ) (n : Nat) (hn : 1 ≤ n) :
    ((List.range n).map
      (local_slice xs (split_num_between_processes (xs.length : Int) n).1
        (split_num_between_processes (xs.length : Int) n).2)).flatten = xs := by
  obtain ⟨k, rfl⟩ : ∃ k, n = k + 1 := ⟨n - 1, by omega⟩
  have hslice : ∀ i ∈ List.range k,
      local_slice xs (split_num_between_processes (xs.length : Int) (k + 1)).1
          (split_num_between_processes (xs.length : Int) (k + 1)).2 i
        = (fun i => (xs.drop (i * (xs.length / (k + 1)))).take (xs.length / (k + 1))) i :=
    fun i hi => local_slice_eq_take_drop xs k i (List.mem_range.mp hi)
  rw [List.range_succ, List.map_append, List.map_cons, List.map_nil,
    List.flatten_concat, List.map_congr_left hslice, flatten_uniform_slices,
    local_slice_last_eq_drop, List.take_append_drop]

/-- Witness for C2: a five-element array split over two workers is
reassembled exactly. -/
theorem C2_scatter_roundtrip_witness :
    ((List.range 2).map
      (local_slice [1, 2, 3, 4, 5]
        (split_num_between_processes (([1, 2, 3, 4, 5] : List ℚ).length : Int) 2).1
        (split_num_between_processes (([1, 2, 3, 4, 5] : List ℚ).length : Int) 2).2)).flatten
      = ([1, 2, 3, 4, 5] : List ℚ) :=
  C2_scatter_roundtrip [1, 2, 3, 4, 5] 2 (by decide)

/-! ### The weighted averager -/

/-- Closed form of the accumulation loop of `compute_weighted_avg`. -/
theorem weighted_foldl_closed (l : List (Int × ℚ)) (a b : ℚ) :
    l.foldl (fun (s : ℚ × ℚ) p => (s.1 + (p.1 : ℚ) * p.2, s.2 + (p.1 : ℚ))) (a, b)
      = (a + (l.map (fun p => (p.1 : ℚ) * p.2)).sum,
         b + (l.map (fun p => ((p.1 : Int) : ℚ))).sum) := by
  induction l generalizing a b with
  | nil => simp
  | cons x xs ih => simp [ih, add_assoc]

/-- `compute_weighted_avg` as a quotient of list sums over the zipped
weight/value pairs. -/
theorem compute_weighted_avg_eq (array : List ℚ) (weights_array : List Int) :
    compute_weighted_avg array weights_array
      = ((weights_array.zip array).map (fun p => (p.1 : ℚ) * p.2)).sum
        / ((weights_array.zip array).map (fun p => ((p.1 : Int) : ℚ))).sum := by
  unfold compute_weighted_avg
  dsimp only
  rw [weighted_foldl_closed]
  simp

/-- A mapped list sum as a `Finset.range` sum over default-valued reads. -/
theorem map_sum_eq_range_sum {α : Type} [Inhabited α] (f : α → ℚ) (l : List α) :
    (l.map f).sum = ∑ i ∈ Finset.range l.length, f (l.getD i default) := by
  induction l with
  | nil => simp
  | cons x xs ih =>
    rw [List.map_cons, List.sum_cons, ih, List.length_cons, Finset.sum_range_succ']
    simp [add_comm]

/-- C5: for arrays of matching length `num_elements`, the weighted
averager returns `(Σ_i weight[i] * value[i]) / (Σ_i weight[i])`. -/
theorem C5_weighted_average_formula (array : List ℚ) (weights_array : List Int)
    (num_elements : Nat) (harr : array.length = num_elements)
    (hw : weights_array.length = num_elements) :
    compute_weighted_avg array weights_array
      = (∑ i ∈ Finset.range num_elements,
            ((weights_array.getD i 0 : Int) : ℚ) * array.getD i 0)
        / (∑ i ∈ Finset.range num_elements, ((weights_array.getD i 0 : Int) : ℚ)) := by
  rw [compute_weighted_avg_eq]
  have hzlen : (weights_array.zip array).length = num_elements := by
    simp [List.length_zip, harr, hw]
  rw [map_sum_eq_range_sum, map_sum_eq_range_sum, hzlen]
  have hz : ∀ i, i < num_elements →
      (weights_array.zip array).getD i default
        = (weights_array.getD i 0, array.getD i 0) := by
    intro i hi
    have h1 : i < (weights_array.zip array).length := by omega
    rw [List.getD_eq_getElem _ _ h1, List.getElem_zip,
      List.getD_eq_getElem _ _ (by omega), List.getD_eq_getElem _ _ (by omega)]
  congr 1
  · exact Finset.sum_congr rfl fun i hi => by
      rw [hz i (Finset.mem_range.mp hi)]
  · exact Finset.sum_congr rfl fun i hi => by
      rw [hz i (Finset.mem_range.mp hi)]

/-- Witness for C5 on the spec's scenario: weights `{2,2,2,2}`, values
`{0.15, 0.35, 0.55, 0.75}`. -/
theorem C5_weighted_average_formula_witness :
    compute_weighted_avg [(3 : ℚ)/20, 7/20, 11/20, 3/4] [2, 2, 2, 2]
      = (∑ i ∈ Finset.range 4,
            (([2, 2, 2, 2] : List Int).getD i 0 : ℚ)
              * ([(3 : ℚ)/20, 7/20, 11/20, 3/4] : List ℚ).getD i 0)
        / (∑ i ∈ Finset.range 4, (([2, 2, 2, 2] : List Int).getD i 0 : ℚ)) :=
  C5_weighted_average_formula [(3 : ℚ)/20, 7/20, 11/20, 3/4] [2, 2, 2, 2] 4 rfl rfl

/-! ### The local averager and the global-average identity -/

/-- Closed form of the accumulation loop of `compute_avg`. -/
theorem sum_foldl_closed (l : List ℚ) (a : ℚ) :
    l.foldl (fun s x => s + x) a = a + l.sum := by
  induction l generalizing a with
  | nil => simp
  | cons x xs ih => simp [ih, add_assoc]

/-- `compute_avg` is the list sum divided by the length. -/
theorem compute_avg_eq (array : List ℚ) :
    compute_avg array = array.sum / (array.length : ℚ) := by
  unfold compute_avg
  dsimp only
  rw [sum_foldl_closed]
  simp

/-- Zipping a constant weight against values indexed by `range`. -/
theorem zip_replicate_map {β : Type} (a : Int) (g : Nat → β) (k : Nat) :
    (List.replicate k a).zip ((List.range k).map g)
      = (List.range k).map (fun i => (a, g i)) := by
  rw [show List.replicate k a = (List.range k).map (fun _ => a) by
      simp [List.map_const'],
    List.zip_map']

/-- Exact-arithmetic core of the program's correctness: weighting each
slice's mean by its length recovers the mean of the whole array, for the
program's slice layout (`k` slices of `q` elements, the remainder in a
final slice). -/
theorem weighted_avg_uniform_slices (xs : List ℚ) (q k : Nat)
    (hkq : k * q ≤ xs.length) (hq : k ≠ 0 → q ≠ 0) (hr : xs.length - k * q ≠ 0) :
    compute_weighted_avg
        ((List.range k).map (fun i => compute_avg ((xs.drop (i * q)).take q))
          ++ [compute_avg (xs.drop (k * q))])
        (List.replicate k ((q : Nat) : Int) ++ [((xs.length - k * q : Nat) : Int)])
      = compute_avg xs := by
  have hrlt : k * q < xs.length := by omega
  have hrq : ((xs.length - k * q : Nat) : ℚ) ≠ 0 := Nat.cast_ne_zero.mpr hr
  rw [compute_weighted_avg_eq, List.zip_append (by simp), zip_replicate_map]
  simp only [List.zip_cons_cons, List.zip_nil_left, List.map_append, List.map_map,
    List.map_cons, List.map_nil, List.sum_append, List.sum_cons, List.sum_nil,
    add_zero, Function.comp_def]
  have hterm : ∀ i ∈ List.range k,
      (fun i => ((((q : Nat) : Int) : ℚ) * compute_avg ((xs.drop (i * q)).take q)) : Nat → ℚ) i
        = (fun i => ((xs.drop (i * q)).take q).sum) i := by
    intro i hi
    dsimp only
    have hik := List.mem_range.mp hi
    have hq0 : ((q : Nat) : ℚ) ≠ 0 := Nat.cast_ne_zero.mpr (hq (by omega))
    have hsl : ((xs.drop (i * q)).take q).length = q := by
      rw [List.length_take, List.length_drop]
      have h1 : (i + 1) * q ≤ k * q := Nat.mul_le_mul_right _ (by omega)
      have h2 : (i + 1) * q = i * q + q := Nat.succ_mul i q
      omega
    rw [compute_avg_eq, hsl]
    push_cast
    rw [mul_comm, div_mul_cancel₀ _ hq0]
  rw [List.map_congr_left hterm]
  have hsum_slices : ((List.range k).map (fun i => ((xs.drop (i * q)).take q).sum)).sum
      = (xs.take (k * q)).sum := by
    have h := congrArg List.sum (flatten_uniform_slices xs q k)
    rw [List.sum_flatten, List.map_map] at h
    simpa [Function.comp_def] using h
  have hlastlen : (xs.drop (k * q)).length = xs.length - k * q := List.length_drop _ _
  have hlast : ((((xs.length - k * q : Nat)) : Int) : ℚ) * compute_avg (xs.drop (k * q))
      = (xs.drop (k * q)).sum := by
    rw [compute_avg_eq, hlastlen]
    push_cast
    rw [mul_comm, div_mul_cancel₀]
    · push_cast [hkq] at hrq ⊢
      exact hrq
  rw [hsum_slices, hlast]
  have hden : ((List.range k).map (fun _ => (((q : Nat) : Int) : ℚ))).sum
      = (k : ℚ) * (q : ℚ) := by
    simp [List.map_const', List.sum_replicate, nsmul_eq_mul]
  rw [hden]
  have hxs : (xs.take (k * q)).sum + (xs.drop (k * q)).sum = xs.sum := by
    rw [← List.sum_append, List.take_append_drop]
  rw [hxs]
  have hwsum : (k : ℚ) * (q : ℚ) + ((((xs.length - k * q : Nat)) : Int) : ℚ)
      = (xs.length : ℚ) := by
    push_cast [hkq]
    ring
  rw [hwsum, compute_avg_eq]

/-- The gather/weighted-average pipeline on the partition plan recovers
the direct mean exactly (exact arithmetic), provided no count is zero. -/
theorem weighted_avg_slices_eq_avg (xs : List ℚ) (n : Nat) (hn : 1 ≤ n)
    (hnz : ∀ c ∈ (split_num_between_processes (xs.length : Int) n).1, c ≠ 0) :
    compute_weighted_avg
        ((List.range n).map (fun rank =>
          compute_avg (local_slice xs
            (split_num_between_processes (xs.length : Int) n).1
            (split_num_between_processes (xs.length : Int) n).2 rank)))
        (split_num_between_processes (xs.length : Int) n).1
      = compute_avg xs := by
  obtain ⟨k, rfl⟩ : ∃ k, n = k + 1 := ⟨n - 1, by omega⟩
  have hcast : ((xs.length : Nat) : Int) - ((k : Nat) : Int)
        * ((xs.length / (k + 1) : Nat) : Int)
      = ((xs.length - k * (xs.length / (k + 1)) : Nat) : Int) := by
    push_cast [split_mul_div_le xs.length k]
    ring
  have hcounts : (split_num_between_processes (xs.length : Int) (k + 1)).1
      = List.replicate k (((xs.length / (k + 1) : Nat)) : Int)
        ++ [((xs.length - k * (xs.length / (k + 1)) : Nat) : Int)] := by
    rw [split_num_between_processes_eq]
    simp only [Nat.add_sub_cancel]
    rw [tdiv_natCast, hcast]
  have hmeans : (List.range (k + 1)).map (fun rank =>
        compute_avg (local_slice xs
          (split_num_between_processes (xs.length : Int) (k + 1)).1
          (split_num_between_processes (xs.length : Int) (k + 1)).2 rank))
      = (List.range k).map (fun i =>
          compute_avg ((xs.drop (i * (xs.length / (k + 1)))).take (xs.length / (k + 1))))
        ++ [compute_avg (xs.drop (k * (xs.length / (k + 1))))] := by
    rw [List.range_succ, List.map_append, List.map_cons, List.map_nil]
    congr 1
    · exact List.map_congr_left fun i hi => by
        rw [local_slice_eq_take_drop xs k i (List.mem_range.mp hi)]
    · rw [local_slice_last_eq_drop]
  rw [hmeans, hcounts]
  apply weighted_avg_uniform_slices
  · exact split_mul_div_le xs.length k
  · intro hk
    have hmem : (((xs.length / (k + 1) : Nat)) : Int)
        ∈ (split_num_between_processes (xs.length : Int) (k + 1)).1 := by
      rw [hcounts]
      exact List.mem_append_left _ (List.mem_replicate.mpr ⟨hk, rfl⟩)
    exact_mod_cast hnz _ hmem
  · have hmem : ((xs.length - k * (xs.length / (k + 1)) : Nat) : Int)
        ∈ (split_num_between_processes (xs.length : Int) (k + 1)).1 := by
      rw [hcounts]
      exact List.mem_append_right _ (List.mem_singleton.mpr rfl)
    exact_mod_cast hnz _ hmem

/-- C3: for every input array and every partition plan (from the
partitioner) in which no worker has a zero count, the weighted average of
the per-worker means, weighted by the plan's counts, agrees with the
direct mean of the whole array within a relative tolerance of `1e-5`
(in the exact-arithmetic model the two are equal, so the difference is
zero). -/
theorem C3_weighted_average_matches_direct_mean (xs : List ℚ) (n : Nat) (hn : 1 ≤ n)
    (hnz : ∀ c ∈ (split_num_between_processes (xs.length : Int) n).1, c ≠ 0) :
    |compute_weighted_avg
        ((List.range n).map (fun rank =>
          compute_avg (local_slice xs
            (split_num_between_processes (xs.length : Int) n).1
            (split_num_between_processes (xs.length : Int) n).2 rank)))
        (split_num_between_processes (xs.length : Int) n).1
      - compute_avg xs| ≤ (1 / 100000) * |compute_avg xs| := by
  rw [weighted_avg_slices_eq_avg xs n hn hnz, sub_self, abs_zero]
  positivity

/-- Witness for C3: five elements over two workers (counts `{2,3}`, both
nonzero). -/
theorem C3_weighted_average_matches_direct_mean_witness :
    |compute_weighted_avg
        ((List.range 2).map (fun rank =>
          compute_avg (local_slice [1, 2, 3, 4, 5]
            (split_num_between_processes (([1, 2, 3, 4, 5] : List ℚ).length : Int) 2).1
            (split_num_between_processes (([1, 2, 3, 4, 5] : List ℚ).length : Int) 2).2 rank)))
        (split_num_between_processes (([1, 2, 3, 4, 5] : List ℚ).length : Int) 2).1
      - compute_avg [1, 2, 3, 4, 5]| ≤ (1 / 100000) * |compute_avg [1, 2, 3, 4, 5]| :=
  C3_weighted_average_matches_direct_mean [1, 2, 3, 4, 5] 2 (by decide) (by decide)

/-- C7: with a single worker the local slice is the whole global array and
the weighted average of the single partial average (weight = the single
count) equals the direct average exactly. -/
theorem C7_single_worker_exact (xs : List ℚ) :
    local_slice xs (split_num_between_processes (xs.length : Int) 1).1
        (split_num_between_processes (xs.length : Int) 1).2 0 = xs ∧
    compute_weighted_avg
        [compute_avg (local_slice xs
          (split_num_between_processes (xs.length : Int) 1).1
          (split_num_between_processes (xs.length : Int) 1).2 0)]
        (split_num_between_processes (xs.length : Int) 1).1
      = compute_avg xs := by
  have hslice : local_slice xs (split_num_between_processes (xs.length : Int) 1).1
      (split_num_between_processes (xs.length : Int) 1).2 0 = xs := by
    simpa using local_slice_last_eq_drop xs 0
  refine ⟨hslice, ?_⟩
  rw [hslice]
  have hcounts : (split_num_between_processes (xs.length : Int) 1).1
      = [(xs.length : Int)] := by
    rw [split_num_between_processes_eq]
    simp
  rw [hcounts, compute_weighted_avg_eq]
  simp only [List.zip_cons_cons, List.zip_nil_left, List.map_cons, List.map_nil,
    List.sum_cons, List.sum_nil, add_zero]
  rw [compute_avg_eq]
  rcases eq_or_ne xs.length 0 with h0 | h0
  · rw [h0]
    simp
  · have hl : ((xs.length : Nat) : ℚ) ≠ 0 := Nat.cast_ne_zero.mpr h0
    push_cast
    rw [mul_div_cancel_left₀ _ hl]

/-! ### Degenerate partition and the CLI check -/

/-- C6 counterexample: with 2 elements and 4 workers, worker 0's count is
0, and the source's `compute_avg` on the empty slice silently returns the
division-by-zero value (`0` in the exact model, `NaN` in C) — it does not
signal the explicit error the claim requires, as witnessed against the
spec-modelled contract `compute_avg_spec`, which returns `none` there. -/
theorem C6_counterexample_no_error_signalled :
    (0 : Int) ∈ (split_num_between_processes 2 4).1 ∧
    compute_avg ([] : List ℚ) = 0 ∧
    compute_avg_spec ([] : List ℚ) = none ∧
    compute_avg_spec ([] : List ℚ) ≠ some (compute_avg ([] : List ℚ)) := by
  refine ⟨by decide, ?_, rfl, by simp [compute_avg_spec]⟩
  rw [compute_avg_eq]
  simp

/-- C6 amended: whenever `num_workers > total_elements`, worker 0 receives
count 0, and the local averager applied to its empty slice silently
returns the division-by-zero value `sum/0` (`0` in the exact model, `NaN`
in C) instead of signalling an error as the spec-modelled contract
(`none`) would. -/
theorem C6_zero_count_averager_silent (xs : List ℚ) (n : Nat) (hn : 1 ≤ n)
    (hlt : xs.length < n) :
    (split_num_between_processes (xs.length : Int) n).1.getD 0 0 = 0 ∧
    compute_avg (local_slice xs
      (split_num_between_processes (xs.length : Int) n).1
      (split_num_between_processes (xs.length : Int) n).2 0) = 0 ∧
    compute_avg_spec (local_slice xs
      (split_num_between_processes (xs.length : Int) n).1
      (split_num_between_processes (xs.length : Int) n).2 0) = none := by
  have hq : xs.length / n = 0 := Nat.div_eq_of_lt hlt
  have hcount : (split_num_between_processes (xs.length : Int) n).1.getD 0 0 = 0 := by
    rcases lt_or_ge 1 n with h2 | h2
    · rw [split_counts_getD _ n 0 (by omega), tdiv_natCast, hq]
      simp
    · have hn1 : n = 1 := by omega
      subst hn1
      have hl0 : xs.length = 0 := by omega
      have hcl := split_counts_last ((xs.length : Nat) : Int) 1
      simp only [Nat.sub_self] at hcl
      rw [hcl, hl0]
      simp
  have hslice : local_slice xs
      (split_num_between_processes (xs.length : Int) n).1
      (split_num_between_processes (xs.length : Int) n).2 0 = [] := by
    unfold local_slice
    rw [hcount]
    simp
  refine ⟨hcount, ?_, ?_⟩
  · rw [hslice, compute_avg_eq]
    simp
  · rw [hslice]
    rfl

/-- Witness for the amended C6 at the claim's example
(`total_elements = 2`, `num_workers = 4`). -/
theorem C6_zero_count_averager_silent_witness :
    (split_num_between_processes (([1, 2] : List ℚ).length : Int) 4).1.getD 0 0 = 0 ∧
    compute_avg (local_slice [1, 2]
      (split_num_between_processes (([1, 2] : List ℚ).length : Int) 4).1
      (split_num_between_processes (([1, 2] : List ℚ).length : Int) 4).2 0) = 0 ∧
    compute_avg_spec (local_slice [1, 2]
      (split_num_between_processes (([1, 2] : List ℚ).length : Int) 4).1
      (split_num_between_processes (([1, 2] : List ℚ).length : Int) 4).2 0) = none :=
  C6_zero_count_averager_silent [1, 2] 4 (by decide) (by decide)

/-- C8: any invocation whose argument vector does not consist of the
program name plus exactly one positional argument (`argc ≠ 2`) makes
`main` write the usage line to standard error and exit with code 1, before
any other action; in the model the usage error is the entire observable
outcome of `main_start`. -/
theorem C8_usage_error (argv : List String) (h : argv.length ≠ 2) :
    main_start argv = MainStart.usageError 1 "Usage: avg total_num_elements\n" := by
  unfold main_start
  rw [if_pos h]

/-- Witness for C8: invoking with no argument at all. -/
theorem C8_usage_error_witness :
    main_start ["avg"] = MainStart.usageError 1 "Usage: avg total_num_elements\n" :=
  C8_usage_error ["avg"] (by decide)

end Avgv
